import Mathlib

/-!
Verification of the sketch-recognition core of the `sketch-recognition-game`
repository (directory `ai-service`), against its natural-language specification.

The Python sources are shallowly embedded: numpy arrays become `List (List ℚ)`
(exact rational arithmetic stands in for IEEE floats), fallible code returns
`Except`, and external-library primitives that are not code of this repository
(OpenCV blur/threshold/contour extraction, PIL line rasterization and Lanczos
resampling) are taken as function parameters, while every branch, constant and
arithmetic step of the repository's own code is reproduced from the source.
-/

namespace SketchRec

/-- A single-channel raster: rows of rational pixel values (numpy 2-D array). -/
abbrev Mat := List (List ℚ)

/-- Minimum of a list of rationals; `0` on `[]` (numpy raises there, and every
use below is guarded by non-emptiness). Models `np.min` / Python `min`. -/
def listMin : List ℚ → ℚ
  | [] => 0
  | x :: xs => xs.foldl min x

/-- Maximum of a list of rationals; `0` on `[]`. Models `np.max` / `max`. -/
def listMax : List ℚ → ℚ
  | [] => 0
  | x :: xs => xs.foldl max x

theorem foldl_min_le_init (xs : List ℚ) : ∀ a : ℚ, xs.foldl min a ≤ a := by
  induction xs with
  | nil => intro a; exact le_refl a
  | cons y ys ih =>
    intro a
    calc (y :: ys).foldl min a = ys.foldl min (min a y) := rfl
    _ ≤ min a y := ih (min a y)
    _ ≤ a := min_le_left a y

theorem init_le_foldl_max (xs : List ℚ) : ∀ a : ℚ, a ≤ xs.foldl max a := by
  induction xs with
  | nil => intro a; exact le_refl a
  | cons y ys ih =>
    intro a
    calc a ≤ max a y := le_max_left a y
    _ ≤ ys.foldl max (max a y) := ih (max a y)
    _ = (y :: ys).foldl max a := rfl

theorem foldl_min_le_mem (xs : List ℚ) :
    ∀ a q : ℚ, q ∈ xs → xs.foldl min a ≤ q := by
  induction xs with
  | nil => intro a q hq; cases hq
  | cons y ys ih =>
    intro a q hq
    rcases List.mem_cons.mp hq with h | h
    · subst h
      calc (q :: ys).foldl min a = ys.foldl min (min a q) := rfl
      _ ≤ min a q := foldl_min_le_init ys (min a q)
      _ ≤ q := min_le_right a q
    · exact ih (min a y) q h

theorem mem_le_foldl_max (xs : List ℚ) :
    ∀ a q : ℚ, q ∈ xs → q ≤ xs.foldl max a := by
  induction xs with
  | nil => intro a q hq; cases hq
  | cons y ys ih =>
    intro a q hq
    rcases List.mem_cons.mp hq with h | h
    · subst h
      calc q ≤ max a q := le_max_right a q
      _ ≤ ys.foldl max (max a q) := init_le_foldl_max ys (max a q)
      _ = (q :: ys).foldl max a := rfl
    · exact ih (max a y) q h

theorem listMin_le_mem (l : List ℚ) (q : ℚ) (h : q ∈ l) : listMin l ≤ q := by
  cases l with
  | nil => cases h
  | cons x xs =>
    rcases List.mem_cons.mp h with h' | h'
    · subst h'; exact foldl_min_le_init xs q
    · exact foldl_min_le_mem xs x q h'

theorem mem_le_listMax (l : List ℚ) (q : ℚ) (h : q ∈ l) : q ≤ listMax l := by
  cases l with
  | nil => cases h
  | cons x xs =>
    rcases List.mem_cons.mp h with h' | h'
    · subst h'; exact init_le_foldl_max xs q
    · exact mem_le_foldl_max xs x q h'

theorem foldl_min_mem (xs : List ℚ) : ∀ a : ℚ, xs.foldl min a = a ∨ xs.foldl min a ∈ xs := by
  induction xs with
  | nil => intro a; exact Or.inl rfl
  | cons y ys ih =>
    intro a
    rcases ih (min a y) with h | h
    · rcases min_choice a y with h' | h'
      · exact Or.inl (by rw [show (y :: ys).foldl min a = ys.foldl min (min a y) from rfl, h, h'])
      · refine Or.inr (List.mem_cons.mpr (Or.inl ?_))
        rw [show (y :: ys).foldl min a = ys.foldl min (min a y) from rfl, h, h']
    · exact Or.inr (List.mem_cons.mpr (Or.inr h))

theorem foldl_max_mem (xs : List ℚ) : ∀ a : ℚ, xs.foldl max a = a ∨ xs.foldl max a ∈ xs := by
  induction xs with
  | nil => intro a; exact Or.inl rfl
  | cons y ys ih =>
    intro a
    rcases ih (max a y) with h | h
    · rcases max_choice a y with h' | h'
      · exact Or.inl (by rw [show (y :: ys).foldl max a = ys.foldl max (max a y) from rfl, h, h'])
      · refine Or.inr (List.mem_cons.mpr (Or.inl ?_))
        rw [show (y :: ys).foldl max a = ys.foldl max (max a y) from rfl, h, h']
    · exact Or.inr (List.mem_cons.mpr (Or.inr h))

theorem listMin_mem (l : List ℚ) (h : l ≠ []) : listMin l ∈ l := by
  cases l with
  | nil => exact absurd rfl h
  | cons x xs =>
    rcases foldl_min_mem xs x with h' | h'
    · exact List.mem_cons.mpr (Or.inl h')
    · exact List.mem_cons.mpr (Or.inr h')

theorem listMax_mem (l : List ℚ) (h : l ≠ []) : listMax l ∈ l := by
  cases l with
  | nil => exact absurd rfl h
  | cons x xs =>
    rcases foldl_max_mem xs x with h' | h'
    · exact List.mem_cons.mpr (Or.inl h')
    · exact List.mem_cons.mpr (Or.inr h')

theorem listMin_le_listMax (l : List ℚ) (h : l ≠ []) : listMin l ≤ listMax l :=
  mem_le_listMax l (listMin l) (listMin_mem l h)

theorem foldl_min_map (f : ℚ → ℚ) (hf : ∀ a b : ℚ, f (min a b) = min (f a) (f b))
    (xs : List ℚ) : ∀ a : ℚ, (xs.map f).foldl min (f a) = f (xs.foldl min a) := by
  induction xs with
  | nil => intro a; rfl
  | cons y ys ih =>
    intro a
    calc ((y :: ys).map f).foldl min (f a) = (ys.map f).foldl min (min (f a) (f y)) := rfl
    _ = (ys.map f).foldl min (f (min a y)) := by rw [hf a y]
    _ = f (ys.foldl min (min a y)) := ih (min a y)
    _ = f ((y :: ys).foldl min a) := rfl

theorem foldl_max_map (f : ℚ → ℚ) (hf : ∀ a b : ℚ, f (max a b) = max (f a) (f b))
    (xs : List ℚ) : ∀ a : ℚ, (xs.map f).foldl max (f a) = f (xs.foldl max a) := by
  induction xs with
  | nil => intro a; rfl
  | cons y ys ih =>
    intro a
    calc ((y :: ys).map f).foldl max (f a) = (ys.map f).foldl max (max (f a) (f y)) := rfl
    _ = (ys.map f).foldl max (f (max a y)) := by rw [hf a y]
    _ = f (ys.foldl max (max a y)) := ih (max a y)
    _ = f ((y :: ys).foldl max a) := rfl

theorem listMin_map (f : ℚ → ℚ) (hf : Monotone f) (l : List ℚ) :
    l ≠ [] → listMin (l.map f) = f (listMin l) := by
  cases l with
  | nil => intro h; exact absurd rfl h
  | cons x xs =>
    intro _
    exact foldl_min_map f (fun a b => hf.map_min) xs x

theorem listMax_map (f : ℚ → ℚ) (hf : Monotone f) (l : List ℚ) :
    l ≠ [] → listMax (l.map f) = f (listMax l) := by
  cases l with
  | nil => intro h; exact absurd rfl h
  | cons x xs =>
    intro _
    exact foldl_max_map f (fun a b => hf.map_max) xs x

/-- Number of rows, `array.shape[0]`. -/
def matRows (m : Mat) : ℕ := m.length

/-- Number of columns, `array.shape[1]` (arrays are rectangular in numpy). -/
def matCols (m : Mat) : ℕ := (m.headD []).length

/-- `array.min()` over all entries. -/
def matMin (m : Mat) : ℚ := listMin m.flatten

/-- `array.max()` over all entries. -/
def matMax (m : Mat) : ℚ := listMax m.flatten

/-- `np.zeros_like(array)`: an all-zero array of the same shape. -/
def zerosLike (m : Mat) : Mat := m.map (fun row => row.map (fun _ => 0))

/-- `np.zeros((r, c))`. -/
def zerosMat (r c : ℕ) : Mat := List.replicate r (List.replicate c 0)

theorem flatten_map_map (f : ℚ → ℚ) (m : Mat) :
    (m.map (List.map f)).flatten = m.flatten.map f := by
  induction m with
  | nil => rfl
  | cons r rs ih =>
    rw [List.map_cons, List.flatten_cons, List.flatten_cons, List.map_append, ih]

namespace ImageUtils

/-- Embedding of `normalize_image` from `app/utils/image_utils.py` (lines
174-194): uniform arrays are mapped to `np.zeros_like`, otherwise values are
affinely rescaled from `[min, max]` onto the target range `[lo, hi]`. -/
def normalize_image (m : Mat) (lo hi : ℚ) : Mat :=
  if matMax m = matMin m then zerosLike m
  else m.map (List.map (fun q => (q - matMin m) / (matMax m - matMin m) * (hi - lo) + lo))

/-- A pen point `(x, y)`. -/
abbrev Point := ℚ × ℚ

/-- The `all_points` accumulation in `preprocess_stroke_data` (image_utils.py
lines 216-219): all points of all strokes, in order; strokes of length 0
contribute nothing (the `len(stroke) > 0` guard is the identity here). -/
def allPoints (strokes : List (List Point)) : List Point := strokes.flatten

/-- `all_points.min(axis=0)` x-component. -/
def minX (pts : List Point) : ℚ := listMin (pts.map Prod.fst)

/-- `all_points.min(axis=0)` y-component. -/
def minY (pts : List Point) : ℚ := listMin (pts.map Prod.snd)

/-- `all_points.max(axis=0)` x-component. -/
def maxX (pts : List Point) : ℚ := listMax (pts.map Prod.fst)

/-- `all_points.max(axis=0)` y-component. -/
def maxY (pts : List Point) : ℚ := listMax (pts.map Prod.snd)

/-- Width of the bounding box over a point set. -/
def bboxW (pts : List Point) : ℚ := maxX pts - minX pts

/-- Height of the bounding box over a point set. -/
def bboxH (pts : List Point) : ℚ := maxY pts - minY pts

/-- `width_range = max(max_x - min_x, 1e-8)` (image_utils.py line 233). -/
def widthRange (pts : List Point) : ℚ := max (bboxW pts) (1 / 100000000)

/-- `height_range = max(max_y - min_y, 1e-8)` (image_utils.py line 234). -/
def heightRange (pts : List Point) : ℚ := max (bboxH pts) (1 / 100000000)

/-- Embedding of the inner `normalize_point` of `preprocess_stroke_data`
(image_utils.py lines 237-242): each axis is scaled to the central 80% of the
corresponding canvas dimension, using that axis's own range. -/
def normalize_point (tw th : ℕ) (minx miny wr hr : ℚ) (p : Point) : Point :=
  (1/10 * (tw : ℚ) + 8/10 * (tw : ℚ) * (p.1 - minx) / wr,
   1/10 * (th : ℚ) + 8/10 * (th : ℚ) * (p.2 - miny) / hr)

/-- All points of all strokes after the `normalize_point` mapping that
`preprocess_stroke_data` applies before drawing. -/
def mappedPoints (tw th : ℕ) (strokes : List (List Point)) : List Point :=
  (allPoints strokes).map
    (normalize_point tw th (minX (allPoints strokes)) (minY (allPoints strokes))
      (widthRange (allPoints strokes)) (heightRange (allPoints strokes)))

/-- `Image.new('L', (width, height), color=255)`: blank white canvas
(`th` rows by `tw` columns once converted with `np.array`). -/
def whiteMat (r c : ℕ) : Mat := List.replicate r (List.replicate c 255)

/-- `255 - img_array`: colour inversion of an 8-bit raster. -/
def invertMat (m : Mat) : Mat := m.map (List.map (fun q => 255 - q))

/-- Embedding of `preprocess_stroke_data` from image_utils.py lines 196-264.
The PIL line rasterization (`draw.line` on the white canvas) is an external
library primitive and is taken as the parameter `render`, which receives the
strokes of length ≥ 2 with all their points already mapped by
`normalize_point`; everything else (empty-drawing early return, bounding box,
axis ranges, inversion, final `normalize_image`) is the repository's code. -/
def preprocess_stroke_data (render : List (List Point) → Mat) (invert : Bool)
    (tw th : ℕ) (strokes : List (List Point)) : Mat :=
  let pts := allPoints strokes
  if pts.isEmpty then
    normalize_image (if invert then invertMat (whiteMat th tw) else whiteMat th tw) 0 1
  else
    let drawn := render ((strokes.filter (fun s => 2 ≤ s.length)).map
      (List.map (normalize_point tw th (minX pts) (minY pts) (widthRange pts) (heightRange pts))))
    normalize_image (if invert then invertMat drawn else drawn) 0 1

/-- `np.uint8` conversion of a nonnegative value: truncate toward zero and
wrap modulo 256 (exact for the nonnegative pixel values used here). -/
def u8cast (q : ℚ) : ℚ := ((⌊q⌋ % 256 : ℤ) : ℚ)

/-- The array conversion at the top of `analyze_image_content` (image_utils.py
line 314): `Image.fromarray((image * 255).astype(np.uint8) if image.max() <= 1
else image.astype(np.uint8))`. -/
def toAnalyzeU8 (m : Mat) : Mat :=
  if matMax m ≤ 1 then m.map (List.map (fun q => u8cast (q * 255)))
  else m.map (List.map u8cast)

/-- The `coverage` feature of `analyze_image_content` (image_utils.py line
335): `np.count_nonzero(img_array < 240) / (shape[0] * shape[1])`, the
fraction of pixels strictly darker than 240. -/
def coverage (m : Mat) : ℚ :=
  (m.flatten.countP (fun q => decide (q < 240)) : ℚ) / ((matRows m : ℚ) * (matCols m : ℚ))

/-- `np.mean` over all entries. -/
def matMean (m : Mat) : ℚ := m.flatten.sum / ((matRows m : ℚ) * (matCols m : ℚ))

/-- The polarity step of `_basic_preprocess_image` (app/core/recognition.py
lines 270-273): invert the [0,1] image when its mean exceeds 0.5 (white
background becomes black background). -/
def basicInvertIfLight (m : Mat) : Mat :=
  if 1/2 < matMean m then m.map (List.map (fun q => 1 - q)) else m

/-- Rational stand-in for the float64 constant `np.pi` used by
`detect_shape_type`. -/
def npPi : ℚ := 3.141592653589793

/-- Per-contour measurements supplied by OpenCV (`cv2.contourArea`,
`cv2.arcLength`, and the width/height of `cv2.boundingRect`); these are
external-library outputs, taken as data. -/
structure ContourMeas where
  area : ℚ
  perimeter : ℚ
  bw : ℚ
  bh : ℚ

/-- `max(contours, key=cv2.contourArea)`: the first contour of maximal area
(Python `max` keeps the earliest maximum); junk value on `[]` (the code
returns before computing it in that case). -/
def largestContour (contours : List ContourMeas) : ContourMeas :=
  match contours with
  | [] => ⟨0, 0, 0, 0⟩
  | c :: cs => cs.foldl (fun acc x => if acc.area < x.area then x else acc) c

/-- Circularity `4*pi*area/perimeter^2` with the zero-perimeter guard
(image_utils.py lines 397-401). -/
def circularityOf (c : ContourMeas) : ℚ :=
  if c.perimeter = 0 then 0 else 4 * npPi * c.area / (c.perimeter * c.perimeter)

/-- Rectangularity `area / (w*h)` with the zero-area guard (image_utils.py
lines 404-409). -/
def rectangularityOf (c : ContourMeas) : ℚ :=
  if c.bw * c.bh = 0 then 0 else c.area / (c.bw * c.bh)

/-- Embedding of `detect_shape_type` (image_utils.py lines 367-421) given the
contour measurements found by OpenCV on the binarized image. -/
def detect_shape_type (contours : List ContourMeas) : String :=
  match contours with
  | [] => "no_shape"
  | c :: cs =>
    if (largestContour (c :: cs)).area < 10 then "no_shape"
    else if 7/10 < circularityOf (largestContour (c :: cs)) then "circular"
    else if 7/10 < rectangularityOf (largestContour (c :: cs)) then "rectangular"
    else "irregular"

end ImageUtils

theorem invertMat_whiteMat (r c : ℕ) :
    ImageUtils.invertMat (ImageUtils.whiteMat r c) = zerosMat r c := by
  simp [ImageUtils.invertMat, ImageUtils.whiteMat, zerosMat, List.map_replicate]

theorem zerosLike_zerosMat (r c : ℕ) : zerosLike (zerosMat r c) = zerosMat r c := by
  simp [zerosLike, zerosMat, List.map_replicate]

theorem mem_zerosMat_flatten (r c : ℕ) (q : ℚ) (h : q ∈ (zerosMat r c).flatten) : q = 0 := by
  rcases List.mem_flatten.mp h with ⟨row, hrow, hq⟩
  rcases List.mem_replicate.mp (by simpa [zerosMat] using hrow) with ⟨-, hrow'⟩
  subst hrow'
  exact (List.mem_replicate.mp hq).2

theorem matMax_zerosMat_eq_matMin (r c : ℕ) : matMax (zerosMat r c) = matMin (zerosMat r c) := by
  by_cases hne : (zerosMat r c).flatten = []
  · rw [matMax, matMin, hne]
    rfl
  · have h1 : matMax (zerosMat r c) = 0 :=
      mem_zerosMat_flatten r c _ (listMax_mem _ hne)
    have h2 : matMin (zerosMat r c) = 0 :=
      mem_zerosMat_flatten r c _ (listMin_mem _ hne)
    rw [h1, h2]

theorem normalize_image_zerosMat (r c : ℕ) :
    ImageUtils.normalize_image (zerosMat r c) 0 1 = zerosMat r c := by
  unfold ImageUtils.normalize_image
  rw [if_pos (matMax_zerosMat_eq_matMin r c), zerosLike_zerosMat]

/-- C8: rasterizing a drawing with zero strokes, or one whose strokes are all
empty, returns an all-background (all-zero, no ink) canvas and raises no
exception, and normalizing that blank result again yields the same
all-background tensor. -/
theorem blank_drawing_rasterizes_blank (render : List (List ImageUtils.Point) → Mat)
    (tw th : ℕ) (strokes : List (List ImageUtils.Point)) (h : ∀ s ∈ strokes, s = []) :
    ImageUtils.preprocess_stroke_data render true tw th strokes = zerosMat th tw ∧
    ImageUtils.normalize_image (zerosMat th tw) 0 1 = zerosMat th tw := by
  have hpts : ImageUtils.allPoints strokes = [] := by
    rw [ImageUtils.allPoints, List.flatten_eq_nil_iff]
    exact h
  constructor
  · unfold ImageUtils.preprocess_stroke_data
    rw [hpts]
    simp only [List.isEmpty_nil, if_true, if_pos rfl]
    rw [invertMat_whiteMat, normalize_image_zerosMat]
  · exact normalize_image_zerosMat th tw

/-- Witness for C8: the concrete drawing `[[]]` (one empty stroke) rasterized
at 28 by 28 yields the all-zero canvas. -/
theorem blank_drawing_rasterizes_blank_witness :
    ImageUtils.preprocess_stroke_data (fun _ => []) true 28 28 [[]] = zerosMat 28 28 :=
  (blank_drawing_rasterizes_blank (fun _ => []) 28 28 [[]] (by simp)).1

/-- C9: `detect_shape_type` classifies exactly as specified: `no_shape` exactly
when there is no contour or the largest contour's area is below the threshold
10; otherwise `circular` exactly when circularity exceeds 0.7, else
`rectangular` exactly when rectangularity exceeds 0.7, else `irregular`. -/
theorem detect_shape_type_classification (contours : List ImageUtils.ContourMeas) :
    (ImageUtils.detect_shape_type contours = "no_shape" ↔
      contours = [] ∨ (ImageUtils.largestContour contours).area < 10) ∧
    (contours ≠ [] → 10 ≤ (ImageUtils.largestContour contours).area →
      ((ImageUtils.detect_shape_type contours = "circular" ↔
         7/10 < ImageUtils.circularityOf (ImageUtils.largestContour contours)) ∧
       (ImageUtils.detect_shape_type contours = "rectangular" ↔
         ImageUtils.circularityOf (ImageUtils.largestContour contours) ≤ 7/10 ∧
         7/10 < ImageUtils.rectangularityOf (ImageUtils.largestContour contours)) ∧
       (ImageUtils.detect_shape_type contours = "irregular" ↔
         ImageUtils.circularityOf (ImageUtils.largestContour contours) ≤ 7/10 ∧
         ImageUtils.rectangularityOf (ImageUtils.largestContour contours) ≤ 7/10))) := by
  cases contours with
  | nil =>
    refine ⟨?_, fun hne _ => absurd rfl hne⟩
    simp [ImageUtils.detect_shape_type]
  | cons c cs =>
    have hdet : ImageUtils.detect_shape_type (c :: cs) =
        (if (ImageUtils.largestContour (c :: cs)).area < 10 then "no_shape"
         else if 7/10 < ImageUtils.circularityOf (ImageUtils.largestContour (c :: cs)) then
           "circular"
         else if 7/10 < ImageUtils.rectangularityOf (ImageUtils.largestContour (c :: cs)) then
           "rectangular"
         else "irregular") := rfl
    rw [hdet]
    split_ifs with h1 h2 h3
    · exact ⟨iff_of_true rfl (Or.inr h1),
        fun _ harea => absurd h1 (not_lt.mpr harea)⟩
    · refine ⟨iff_of_false (by decide) ?_, fun _ _ => ⟨iff_of_true rfl h2,
        iff_of_false (by decide) ?_, iff_of_false (by decide) ?_⟩⟩
      · rintro (h | h)
        · cases h
        · exact h1 h
      · rintro ⟨hc, -⟩
        exact absurd h2 (not_lt.mpr hc)
      · rintro ⟨hc, -⟩
        exact absurd h2 (not_lt.mpr hc)
    · refine ⟨iff_of_false (by decide) ?_, fun _ _ => ⟨iff_of_false (by decide) h2,
        iff_of_true rfl ⟨not_lt.mp h2, h3⟩, iff_of_false (by decide) ?_⟩⟩
      · rintro (h | h)
        · cases h
        · exact h1 h
      · rintro ⟨-, hr⟩
        exact absurd h3 (not_lt.mpr hr)
    · refine ⟨iff_of_false (by decide) ?_, fun _ _ => ⟨iff_of_false (by decide) h2,
        iff_of_false (by decide) ?_, iff_of_true rfl ⟨not_lt.mp h2, not_lt.mp h3⟩⟩⟩
      · rintro (h | h)
        · cases h
        · exact h1 h
      · rintro ⟨-, hr⟩
        exact h3 hr

/-- Witness for C9: a single contour with area 100, perimeter 40 (circularity
`pi/4`, about 0.785) is classified `circular`. -/
theorem detect_shape_type_classification_witness :
    ImageUtils.detect_shape_type [⟨100, 40, 10, 10⟩] = "circular" :=
  (((detect_shape_type_classification [⟨100, 40, 10, 10⟩]).2 (by simp)
      (by norm_num [ImageUtils.largestContour])).1).mpr
    (by norm_num [ImageUtils.circularityOf, ImageUtils.largestContour, ImageUtils.npPi])

theorem countP_replicate_lt240 (n : ℕ) :
    (List.replicate n (0:ℚ)).countP (fun q => decide (q < 240)) = n := by
  induction n with
  | zero => rfl
  | succ k ih => simp [List.replicate_succ, List.countP_cons, ih]

theorem flatten_replicate_replicate (r c : ℕ) (x : ℚ) :
    (List.replicate r (List.replicate c x)).flatten = List.replicate (r * c) x := by
  induction r with
  | zero => simp
  | succ k ih =>
    rw [List.replicate_succ, List.flatten_cons, ih, Nat.succ_mul, Nat.add_comm,
      List.replicate_add]

/-- C6: the polarity bug on blank input. An all-white bitmap, once run through
the basic normalization (`/255` giving all ones, then mean-based inversion
giving all zeros), is analyzed by `analyze_image_content` with the dark-ink
convention (`pixel < 240` counts as ink), so the extracted `coverage` of the
normalized blank tensor is `1`, not the `0` the specification's scenario
requires. -/
theorem allwhite_normalized_coverage_is_one :
    ImageUtils.coverage (ImageUtils.toAnalyzeU8 (ImageUtils.basicInvertIfLight
      (List.replicate 28 (List.replicate 28 1)))) = 1 ∧ (1:ℚ) ≠ 0 := by
  have hmean : ImageUtils.matMean (List.replicate 28 (List.replicate 28 (1:ℚ))) = 1 := by
    rw [ImageUtils.matMean, flatten_replicate_replicate, List.sum_replicate]
    norm_num [matRows, matCols, List.replicate_succ]
  have hinv : ImageUtils.basicInvertIfLight (List.replicate 28 (List.replicate 28 (1:ℚ))) =
      List.replicate 28 (List.replicate 28 0) := by
    rw [ImageUtils.basicInvertIfLight, if_pos (by rw [hmean]; norm_num)]
    rw [List.map_replicate, List.map_replicate]
    norm_num
  have hmax : matMax (List.replicate 28 (List.replicate 28 (0:ℚ))) = 0 := by
    rw [matMax, flatten_replicate_replicate]
    have : listMax (List.replicate (28 * 28) (0:ℚ)) ∈ List.replicate (28 * 28) (0:ℚ) :=
      listMax_mem _ (by
        intro h
        have hl := congrArg List.length h
        rw [List.length_replicate] at hl
        norm_num at hl)
    exact (List.mem_replicate.mp this).2
  have hu8 : ImageUtils.toAnalyzeU8 (List.replicate 28 (List.replicate 28 (0:ℚ))) =
      List.replicate 28 (List.replicate 28 0) := by
    rw [ImageUtils.toAnalyzeU8, if_pos (by rw [hmax]; norm_num)]
    rw [List.map_replicate, List.map_replicate]
    norm_num [ImageUtils.u8cast]
  rw [hinv, hu8]
  refine ⟨?_, one_ne_zero⟩
  rw [ImageUtils.coverage, flatten_replicate_replicate, countP_replicate_lt240]
  norm_num [matRows, matCols, List.replicate_succ]

/-- C5 counterexample: for the drawing with the single stroke
`[(0,0), (1,3)]` (bounding box 1 wide, 3 tall, both nonzero), the points
mapped by `preprocess_stroke_data`'s `normalize_point` at target size 28 by 28
span a bounding box whose width:height ratio differs from the input's
(cross-multiplied to avoid division): the code stretches each axis
independently onto 80% of the canvas. -/
theorem stroke_mapping_aspect_cex :
    ImageUtils.bboxW (ImageUtils.allPoints [[((0:ℚ), (0:ℚ)), (1, 3)]]) ≠ 0 ∧
    ImageUtils.bboxH (ImageUtils.allPoints [[((0:ℚ), (0:ℚ)), (1, 3)]]) ≠ 0 ∧
    ImageUtils.bboxW (ImageUtils.mappedPoints 28 28 [[((0:ℚ), (0:ℚ)), (1, 3)]]) *
        ImageUtils.bboxH (ImageUtils.allPoints [[((0:ℚ), (0:ℚ)), (1, 3)]]) ≠
      ImageUtils.bboxH (ImageUtils.mappedPoints 28 28 [[((0:ℚ), (0:ℚ)), (1, 3)]]) *
        ImageUtils.bboxW (ImageUtils.allPoints [[((0:ℚ), (0:ℚ)), (1, 3)]]) := by
  refine ⟨?_, ?_, ?_⟩ <;>
    norm_num [ImageUtils.bboxW, ImageUtils.bboxH, ImageUtils.mappedPoints,
      ImageUtils.allPoints, ImageUtils.minX, ImageUtils.maxX, ImageUtils.minY,
      ImageUtils.maxY, ImageUtils.widthRange, ImageUtils.heightRange,
      ImageUtils.normalize_point, listMin, listMax, min_def, max_def]

/-- C5 amended: for every drawing whose overall bounding box has width and
height at least `1e-8` (in particular nonzero) and positive target size, the
`normalize_point` mapping sends the points onto the central 80% of EACH axis
independently: mapped x-coordinates span exactly `[0.1*tw, 0.9*tw]` and mapped
y-coordinates span exactly `[0.1*th, 0.9*th]`, so the drawn content's aspect
ratio equals the canvas ratio, not the input bounding box ratio. -/
theorem stroke_mapping_fills_80pct (tw th : ℕ) (strokes : List (List ImageUtils.Point))
    (hne : ImageUtils.allPoints strokes ≠ [])
    (hw : 1 / 100000000 ≤ ImageUtils.bboxW (ImageUtils.allPoints strokes))
    (hh : 1 / 100000000 ≤ ImageUtils.bboxH (ImageUtils.allPoints strokes)) :
    ImageUtils.minX (ImageUtils.mappedPoints tw th strokes) = 1/10 * (tw : ℚ) ∧
    ImageUtils.maxX (ImageUtils.mappedPoints tw th strokes) = 9/10 * (tw : ℚ) ∧
    ImageUtils.minY (ImageUtils.mappedPoints tw th strokes) = 1/10 * (th : ℚ) ∧
    ImageUtils.maxY (ImageUtils.mappedPoints tw th strokes) = 9/10 * (th : ℚ) := by
  have h8 : (0:ℚ) < 1 / 100000000 := by norm_num
  have hw0 : 0 < ImageUtils.bboxW (ImageUtils.allPoints strokes) := lt_of_lt_of_le h8 hw
  have hh0 : 0 < ImageUtils.bboxH (ImageUtils.allPoints strokes) := lt_of_lt_of_le h8 hh
  have hwr : ImageUtils.widthRange (ImageUtils.allPoints strokes) =
      ImageUtils.bboxW (ImageUtils.allPoints strokes) := max_eq_left hw
  have hhr : ImageUtils.heightRange (ImageUtils.allPoints strokes) =
      ImageUtils.bboxH (ImageUtils.allPoints strokes) := max_eq_left hh
  have hwrpos : 0 < ImageUtils.widthRange (ImageUtils.allPoints strokes) := by
    rw [hwr]; exact hw0
  have hhrpos : 0 < ImageUtils.heightRange (ImageUtils.allPoints strokes) := by
    rw [hhr]; exact hh0
  have hxne : (ImageUtils.allPoints strokes).map Prod.fst ≠ [] := by
    intro hc
    exact hne (List.map_eq_nil_iff.mp hc)
  have hyne : (ImageUtils.allPoints strokes).map Prod.snd ≠ [] := by
    intro hc
    exact hne (List.map_eq_nil_iff.mp hc)
  have hmx : Monotone (fun x : ℚ => 1/10 * (tw : ℚ) +
      8/10 * (tw : ℚ) * (x - ImageUtils.minX (ImageUtils.allPoints strokes)) /
        ImageUtils.widthRange (ImageUtils.allPoints strokes)) := by
    intro a b hab
    have h1 : 8/10 * (tw : ℚ) * (a - ImageUtils.minX (ImageUtils.allPoints strokes)) ≤
        8/10 * (tw : ℚ) * (b - ImageUtils.minX (ImageUtils.allPoints strokes)) :=
      mul_le_mul_of_nonneg_left (by linarith) (by positivity)
    have h2 := div_le_div_of_nonneg_right h1 hwrpos.le
    simpa using add_le_add_left h2 (1/10 * (tw : ℚ))
  have hmy : Monotone (fun y : ℚ => 1/10 * (th : ℚ) +
      8/10 * (th : ℚ) * (y - ImageUtils.minY (ImageUtils.allPoints strokes)) /
        ImageUtils.heightRange (ImageUtils.allPoints strokes)) := by
    intro a b hab
    have h1 : 8/10 * (th : ℚ) * (a - ImageUtils.minY (ImageUtils.allPoints strokes)) ≤
        8/10 * (th : ℚ) * (b - ImageUtils.minY (ImageUtils.allPoints strokes)) :=
      mul_le_mul_of_nonneg_left (by linarith) (by positivity)
    have h2 := div_le_div_of_nonneg_right h1 hhrpos.le
    simpa using add_le_add_left h2 (1/10 * (th : ℚ))
  have hmapx : (ImageUtils.mappedPoints tw th strokes).map Prod.fst =
      ((ImageUtils.allPoints strokes).map Prod.fst).map (fun x : ℚ => 1/10 * (tw : ℚ) +
        8/10 * (tw : ℚ) * (x - ImageUtils.minX (ImageUtils.allPoints strokes)) /
          ImageUtils.widthRange (ImageUtils.allPoints strokes)) := by
    unfold ImageUtils.mappedPoints
    rw [List.map_map, List.map_map]
    rfl
  have hmapy : (ImageUtils.mappedPoints tw th strokes).map Prod.snd =
      ((ImageUtils.allPoints strokes).map Prod.snd).map (fun y : ℚ => 1/10 * (th : ℚ) +
        8/10 * (th : ℚ) * (y - ImageUtils.minY (ImageUtils.allPoints strokes)) /
          ImageUtils.heightRange (ImageUtils.allPoints strokes)) := by
    unfold ImageUtils.mappedPoints
    rw [List.map_map, List.map_map]
    rfl
  refine ⟨?_, ?_, ?_, ?_⟩
  · rw [ImageUtils.minX, hmapx, listMin_map _ hmx _ hxne]
    have hmin : listMin ((ImageUtils.allPoints strokes).map Prod.fst) =
        ImageUtils.minX (ImageUtils.allPoints strokes) := rfl
    rw [hmin, sub_self, mul_zero, zero_div, add_zero]
  · rw [ImageUtils.maxX, hmapx, listMax_map _ hmx _ hxne]
    have hbb : listMax ((ImageUtils.allPoints strokes).map Prod.fst) -
        ImageUtils.minX (ImageUtils.allPoints strokes) =
        ImageUtils.bboxW (ImageUtils.allPoints strokes) := rfl
    rw [hbb, hwr, mul_div_assoc, div_self (ne_of_gt hw0), mul_one]
    ring
  · rw [ImageUtils.minY, hmapy, listMin_map _ hmy _ hyne]
    have hmin : listMin ((ImageUtils.allPoints strokes).map Prod.snd) =
        ImageUtils.minY (ImageUtils.allPoints strokes) := rfl
    rw [hmin, sub_self, mul_zero, zero_div, add_zero]
  · rw [ImageUtils.maxY, hmapy, listMax_map _ hmy _ hyne]
    have hbb : listMax ((ImageUtils.allPoints strokes).map Prod.snd) -
        ImageUtils.minY (ImageUtils.allPoints strokes) =
        ImageUtils.bboxH (ImageUtils.allPoints strokes) := rfl
    rw [hbb, hhr, mul_div_assoc, div_self (ne_of_gt hh0), mul_one]
    ring

/-- Witness for C5 amended: the stroke `[(0,0), (1,3)]` at target size 28 by 28
has its mapped x-coordinates starting exactly at `0.1 * 28 = 2.8`. -/
theorem stroke_mapping_fills_80pct_witness :
    ImageUtils.minX (ImageUtils.mappedPoints 28 28 [[((0:ℚ), (0:ℚ)), (1, 3)]]) = 1/10 * (28 : ℚ) :=
  (stroke_mapping_fills_80pct 28 28 [[((0:ℚ), (0:ℚ)), (1, 3)]]
    (by simp [ImageUtils.allPoints])
    (by norm_num [ImageUtils.bboxW, ImageUtils.allPoints, ImageUtils.minX, ImageUtils.maxX,
      listMin, listMax, min_def, max_def])
    (by norm_num [ImageUtils.bboxH, ImageUtils.allPoints, ImageUtils.minY, ImageUtils.maxY,
      listMin, listMax, min_def, max_def])).1

/-- Ranking order used by the service post-processing: descending confidence.
`List.insertionSort` with this relation is stable, exactly like Python's
`sorted(..., key=lambda x: x['confidence'], reverse=True)`. -/
def confDesc (a b : String × ℚ) : Prop := b.2 ≤ a.2

instance : DecidableRel confDesc := fun a b => inferInstanceAs (Decidable (b.2 ≤ a.2))

instance : IsTotal (String × ℚ) confDesc := ⟨fun a b => le_total b.2 a.2⟩

instance : IsTrans (String × ℚ) confDesc := ⟨fun _ _ _ h1 h2 => le_trans h2 h1⟩

namespace ImageUtils

/-- The one Python exception modelled here: referencing a local variable
before assignment. -/
inductive PyErr where
  | unboundLocal
deriving DecidableEq

/-- A contour as returned by `cv2.findContours`: its (x, y) pixel points. -/
abbrev CvContour := List (ℕ × ℕ)

def natListMin (l : List ℕ) : ℕ :=
  match l with
  | [] => 0
  | x :: xs => xs.foldl min x

def natListMax (l : List ℕ) : ℕ :=
  match l with
  | [] => 0
  | x :: xs => xs.foldl max x

/-- `x, y, w, h = cv2.boundingRect(...)`. -/
structure Rect where
  x : ℕ
  y : ℕ
  w : ℕ
  h : ℕ

/-- `cv2.boundingRect` over a set of pixel points (inclusive extents). -/
def boundingRect (pts : List (ℕ × ℕ)) : Rect :=
  ⟨natListMin (pts.map Prod.fst), natListMin (pts.map Prod.snd),
    natListMax (pts.map Prod.fst) - natListMin (pts.map Prod.fst) + 1,
    natListMax (pts.map Prod.snd) - natListMin (pts.map Prod.snd) + 1⟩

/-- `binary[y1:y2, x1:x2]`. -/
def cropMat (m : Mat) (y1 y2 x1 x2 : ℕ) : Mat :=
  ((m.drop y1).take (y2 - y1)).map (fun row => (row.drop x1).take (x2 - x1))

/-- `padded = np.zeros(...); padded[py:py+nh, px:px+nw] = resized`: paste the
resized crop (of shape `nh` by `nw`) centered on a blank canvas of `th` rows
by `tw` columns. -/
def pasteCentered (tw th nw nh px py : ℕ) (resized : Mat) : Mat :=
  (List.range th).map (fun i =>
    if py ≤ i ∧ i < py + nh then
      List.replicate px 0 ++ ((resized.getD (i - py) []).take nw) ++
        List.replicate (tw - px - nw) 0
    else List.replicate tw 0)

/-- Embedding of `enhanced_preprocess_image` (image_utils.py lines 464-639).
The OpenCV primitives (`cv2.GaussianBlur`, `cv2.adaptiveThreshold`,
`cv2.findContours`, `cv2.resize`) are external-library functions taken as
parameters; every branch, index computation and constant around them is the
repository's code. Notes kept from the source: in the `else` branch for
completely uniform images the source executes `binary = img_uint8`, but
`img_uint8` is a local variable assigned only inside the other branch, so
Python raises `UnboundLocalError` there — modelled as `Except.error`;
`int(w * 0.2)` is written as floor division by 5 (float64 rounding of `w*0.2`
never reaches the next integer); the final `np.expand_dims` batch/channel
wrapping is omitted (the pixel payload is unchanged); all call sites use the
square default `target_size = (28, 28)`, so the width/height order of
`np.zeros(target_size)` is immaterial and the canvas is built as `th` rows by
`tw` columns. -/
def enhanced_preprocess_image
    (gaussianBlur adaptiveThreshold : Mat → Mat)
    (findContours : Mat → List CvContour)
    (resize : Mat → ℕ → ℕ → Mat)
    (isUint8 : Bool) (image : Mat) (tw th : ℕ) : Except PyErr Mat :=
  let imgf := if isUint8 then image.map (List.map (fun q => q / 255)) else image
  if matMin imgf < matMax imgf then
    let imgU8 := if matMax imgf ≤ 1 then imgf.map (List.map (fun q => u8cast (q * 255)))
      else imgf.map (List.map u8cast)
    let binary := adaptiveThreshold (gaussianBlur imgU8)
    let contours0 := findContours binary
    let contours := if contours0.isEmpty then
        findContours (binary.map (List.map (fun q => 255 - q)))
      else contours0
    if contours.isEmpty then
      Except.ok (zerosMat th tw)
    else
      let r0 := boundingRect contours.flatten
      let r := if r0.w = 0 ∨ r0.h = 0 then Rect.mk 0 0 (matCols binary) (matRows binary)
        else r0
      let x1 := r.x - r.w / 5
      let y1 := r.y - r.h / 5
      let x2 := min (matCols binary) (r.x + r.w + r.w / 5)
      let y2 := min (matRows binary) (r.y + r.h + r.h / 5)
      let cropped := cropMat binary y1 y2 x1 x2
      if 0 < matRows cropped ∧ 0 < matCols cropped then
        let nw := if matRows cropped < matCols cropped then tw
          else (th * matCols cropped) / matRows cropped
        let nh := if matRows cropped < matCols cropped then
            (tw * matRows cropped) / matCols cropped
          else th
        let padded := pasteCentered tw th nw nh ((tw - nw) / 2) ((th - nh) / 2)
          (resize cropped nw nh)
        Except.ok (padded.map (List.map (fun q => q / 255)))
      else
        Except.ok ((zerosMat th tw).map (List.map (fun q => q / 255)))
  else
    Except.error PyErr.unboundLocal

end ImageUtils

/-- C4 (code bug): for every choice of the OpenCV primitives,
`enhanced_preprocess_image` on a completely uniform raster — here a 2 by 2
image whose pixels are all 0.5 — reaches the branch whose source comment says
"Fallback for completely uniform images" and raises `UnboundLocalError`
(`binary = img_uint8` reads a local assigned only in the other branch),
instead of degrading to the all-zero tensor without raising. -/
theorem enhanced_preprocess_uniform_raises
    (gaussianBlur adaptiveThreshold : Mat → Mat)
    (findContours : Mat → List ImageUtils.CvContour)
    (resize : Mat → ℕ → ℕ → Mat) :
    ImageUtils.enhanced_preprocess_image gaussianBlur adaptiveThreshold findContours resize
      false [[1/2, 1/2], [1/2, 1/2]] 28 28 =
      Except.error ImageUtils.PyErr.unboundLocal := by
  unfold ImageUtils.enhanced_preprocess_image
  norm_num [matMin, matMax, listMin, listMax, List.foldl, min_self, max_self]

namespace Recognition

/-- `class_name.split('_')[0]`: the prefix of a label before its first
underscore (used to strip vocabulary-version suffixes such as `_3000`). -/
def stripSuffix (s : String) : String := (s.data.takeWhile (fun ch => ch ≠ '_')).asString

/-- Embedding of `_predict_based_on_features` (app/core/recognition.py lines
516-648): the hand-authored decision table keyed on shape type, coverage
bucket and centroid position. The trailing "generic fallback" list in the
source (lines 640-648) is unreachable, every branch of the `if/elif/else`
above it returns. The function is total by construction (it cannot throw). -/
def predict_based_on_features (hasError : Bool) (shape : String) (coverage : ℚ)
    (cy cx : ℚ) : List (String × ℚ) :=
  if hasError then [("error", 8/10), ("unknown", 2/10)]
  else if shape = "circular" then
    if coverage < 2/10 then
      [("circle", 65/100), ("clock", 2/10), ("face", 1/10), ("apple", 3/100), ("fish", 2/100)]
    else if coverage < 4/10 then
      [("face", 45/100), ("apple", 25/100), ("clock", 15/100), ("fish", 1/10), ("star", 5/100)]
    else
      [("apple", 5/10), ("face", 2/10), ("clock", 15/100), ("star", 1/10), ("fish", 5/100)]
  else if shape = "rectangular" then
    if cy < 4/10 then
      [("house", 6/10), ("chair", 2/10), ("car", 1/10), ("airplane", 5/100), ("clock", 5/100)]
    else if coverage < 3/10 then
      [("house", 4/10), ("chair", 3/10), ("car", 15/100), ("clock", 1/10), ("bicycle", 5/100)]
    else
      [("chair", 35/100), ("house", 3/10), ("car", 2/10), ("clock", 1/10), ("bicycle", 5/100)]
  else
    if coverage < 15/100 then
      if 6/10 < cy then
        [("tree", 4/10), ("umbrella", 3/10), ("bicycle", 15/100), ("dog", 1/10),
          ("chair", 5/100)]
      else
        [("cat", 35/100), ("star", 25/100), ("dog", 2/10), ("umbrella", 15/100),
          ("fish", 5/100)]
    else if coverage < 3/10 then
      if cx < 4/10 then
        [("car", 4/10), ("bicycle", 25/100), ("dog", 2/10), ("cat", 1/10), ("fish", 5/100)]
      else
        [("airplane", 3/10), ("fish", 25/100), ("star", 2/10), ("bicycle", 15/100),
          ("umbrella", 1/10)]
    else
      [("tree", 3/10), ("dog", 25/100), ("cat", 2/10), ("fish", 15/100), ("star", 1/10)]

/-- `if not predictions:` default (app/core/recognition.py lines 468-472). -/
def predsDefault (preds0 : List (String × ℚ)) : List (String × ℚ) :=
  if preds0.isEmpty then [("unknown", 3/4), ("drawing", 1/4)] else preds0

/-- Padding with low-confidence classes up to `top_k` (recognition.py lines
474-484): remaining class names not already predicted are appended with
confidence 0.01, suffix-stripped. -/
def predsPadded (classNames : List String) (topK : ℕ)
    (preds1 : List (String × ℚ)) : List (String × ℚ) :=
  if preds1.length < topK then
    preds1 ++ ((classNames.filter (fun c => !((preds1.map Prod.fst).contains c))).take
      (topK - preds1.length)).map (fun c => (stripSuffix c, 1/100))
  else preds1

/-- Sort by confidence descending and truncate to `top_k` (recognition.py
line 487), composed with the default and padding steps. -/
def predictPostprocessPre (classNames : List String) (topK : ℕ)
    (preds0 : List (String × ℚ)) : List (String × ℚ) :=
  (List.insertionSort confDesc (predsPadded classNames topK (predsDefault preds0))).take topK

/-- Final renormalization (recognition.py lines 489-493): when the truncated
list's total confidence is positive, divide every confidence by it. -/
def predictPostprocess (classNames : List String) (topK : ℕ)
    (preds0 : List (String × ℚ)) : List (String × ℚ) :=
  if 0 < ((predictPostprocessPre classNames topK preds0).map Prod.snd).sum then
    (predictPostprocessPre classNames topK preds0).map
      (fun p => (p.1, p.2 / ((predictPostprocessPre classNames topK preds0).map Prod.snd).sum))
  else predictPostprocessPre classNames topK preds0

end Recognition

/-- C7: `_predict_based_on_features` is total: for each of the four shape
types and any coverage and centroid in `[0,1]` it returns a non-empty
prediction list (and, being a total function, it cannot throw). -/
theorem predict_based_on_features_total (shape : String) (coverage cy cx : ℚ)
    (hs : shape ∈ (["circular", "rectangular", "irregular", "no_shape"] : List String))
    (hc0 : 0 ≤ coverage) (hc1 : coverage ≤ 1)
    (hy0 : 0 ≤ cy) (hy1 : cy ≤ 1) (hx0 : 0 ≤ cx) (hx1 : cx ≤ 1) :
    Recognition.predict_based_on_features false shape coverage cy cx ≠ [] := by
  unfold Recognition.predict_based_on_features
  split_ifs <;> simp

/-- Witness for C7 at shape `circular`, coverage 0, centroid `(0.5, 0.5)`. -/
theorem predict_based_on_features_total_witness :
    Recognition.predict_based_on_features false "circular" 0 (1/2) (1/2) ≠ [] :=
  predict_based_on_features_total "circular" 0 (1/2) (1/2) (by simp)
    le_rfl (by norm_num) (by norm_num) (by norm_num) (by norm_num) (by norm_num)

theorem sum_map_div (l : List ℚ) (t : ℚ) : (l.map (fun q => q / t)).sum = l.sum / t := by
  induction l with
  | nil => simp
  | cons x xs ih => simp [ih, add_div]

theorem predictPostprocessPre_nonneg (cn : List String) (tk : ℕ)
    (preds : List (String × ℚ)) (hnn : ∀ p ∈ preds, 0 ≤ p.2) :
    ∀ p ∈ Recognition.predictPostprocessPre cn tk preds, 0 ≤ p.2 := by
  intro p hp
  have hp1 : p ∈ List.insertionSort confDesc
      (Recognition.predsPadded cn tk (Recognition.predsDefault preds)) :=
    List.mem_of_mem_take hp
  have hp2 : p ∈ Recognition.predsPadded cn tk (Recognition.predsDefault preds) :=
    (List.perm_insertionSort confDesc _).mem_iff.mp hp1
  have hdef : ∀ q ∈ Recognition.predsDefault preds, 0 ≤ q.2 := by
    intro q hq
    unfold Recognition.predsDefault at hq
    by_cases he : preds.isEmpty
    · rw [if_pos he] at hq
      simp only [List.mem_cons, List.not_mem_nil, or_false] at hq
      rcases hq with rfl | rfl <;> norm_num
    · rw [if_neg he] at hq
      exact hnn q hq
  unfold Recognition.predsPadded at hp2
  by_cases hlen : (Recognition.predsDefault preds).length < tk
  · rw [if_pos hlen] at hp2
    rcases List.mem_append.mp hp2 with hm | hm
    · exact hdef p hm
    · rcases List.mem_map.mp hm with ⟨c, -, hc⟩
      rw [← hc]
      norm_num
  · rw [if_neg hlen] at hp2
    exact hdef p hp2

/-- C1 amended: the feature-based fallback path of `predict` renormalizes its
final list so the confidences sum exactly to 1 whenever the padded, sorted,
truncated list has positive total confidence, and all final confidences are
nonnegative given nonnegative candidates. (As the counterexample shows, the
claim as stated fails for `recognize_sketch`, whose output is on a 0-100
percentage scale, and the model-backed path of `predict` returns raw top-5
scores without renormalization.) -/
theorem fallback_renormalization_sums_to_one (cn : List String) (tk : ℕ)
    (preds : List (String × ℚ)) (hnn : ∀ p ∈ preds, 0 ≤ p.2)
    (hpos : 0 < ((Recognition.predictPostprocessPre cn tk preds).map Prod.snd).sum) :
    ((Recognition.predictPostprocess cn tk preds).map Prod.snd).sum = 1 ∧
    ∀ p ∈ Recognition.predictPostprocess cn tk preds, 0 ≤ p.2 := by
  have hpp : Recognition.predictPostprocess cn tk preds =
      (Recognition.predictPostprocessPre cn tk preds).map
        (fun p => (p.1, p.2 / ((Recognition.predictPostprocessPre cn tk preds).map Prod.snd).sum)) := by
    unfold Recognition.predictPostprocess
    rw [if_pos hpos]
  constructor
  · rw [hpp, List.map_map]
    have hcomp : (Prod.snd ∘ fun p : String × ℚ =>
        (p.1, p.2 / ((Recognition.predictPostprocessPre cn tk preds).map Prod.snd).sum)) =
        (fun q => q / ((Recognition.predictPostprocessPre cn tk preds).map Prod.snd).sum) ∘
          Prod.snd := rfl
    rw [hcomp, ← List.map_map, sum_map_div]
    exact div_self (ne_of_gt hpos)
  · intro p hp
    rw [hpp] at hp
    rcases List.mem_map.mp hp with ⟨q, hq, hqp⟩
    rw [← hqp]
    exact div_nonneg (predictPostprocessPre_nonneg cn tk preds hnn q hq) hpos.le

/-- Witness for C1 amended: a single candidate `("cat", 1/2)` with no padding
classes renormalizes to total confidence exactly 1. -/
theorem fallback_renormalization_sums_to_one_witness :
    ((Recognition.predictPostprocess [] 5 [("cat", 1/2)]).map Prod.snd).sum = 1 :=
  (fallback_renormalization_sums_to_one [] 5 [("cat", 1/2)]
    (by
      intro p hp
      rcases List.mem_singleton.mp hp with rfl
      norm_num)
    (by
      norm_num [Recognition.predictPostprocessPre, Recognition.predsPadded,
        Recognition.predsDefault, List.insertionSort, List.orderedInsert])).1

namespace RecognitionService

/-- The result object of `recognize_sketch`
(app/core/recognition_service.py lines 376-442): success flag, optional error
message, the formatted `top_predictions` list of (class, confidence) pairs and
the reported inference time (wall-clock timing is modelled as 0). -/
structure RecognitionResponse where
  success : Bool
  error : Option String
  top_predictions : List (String × ℚ)
  inference_time : ℚ
deriving DecidableEq

/-- Python `round(x, 2)` used when formatting confidences as percentages
(recognition_service.py line 414). Bankers' rounding differs from this
floor-based rounding only at exact half-cent ties, which no claim exercises. -/
def round2 (q : ℚ) : ℚ := ((⌊q * 100 + 1/2⌋ : ℤ) : ℚ) / 100

/-- Embedding of `recognize_sketch` (recognition_service.py lines 376-442 and
identically ensemble_recognition_service.py lines 350-410). The whole body
runs under `try/except`: preprocessing is the only step that can raise (the
`predict` methods catch internally and fall back), so the input is modelled as
an `Except` of an already-preprocessed image; `predictFn` is the total
`predict` step. On success, confidences are formatted as rounded percentages
(`round(confidence * 100, 2)`); on any caught exception a well-formed response
with `success = false` and the single candidate `("error", 100.0)` is
returned. -/
def recognize_sketch {α : Type} (pre : Except String α)
    (predictFn : α → List (String × ℚ)) : RecognitionResponse :=
  match pre with
  | Except.ok img =>
    ⟨true, none, (predictFn img).map (fun p => (p.1, round2 (p.2 * 100))), 0⟩
  | Except.error e =>
    ⟨false, some e, [("error", 100)], 0⟩

end RecognitionService

/-- C3 counterexample: on an internal exception, `recognize_sketch` returns
the synthetic candidate with confidence `100.0` (a percentage), not `1.0` as
the claim states. -/
theorem recognize_sketch_error_conf_cex :
    (RecognitionService.recognize_sketch (Except.error "fail")
      (fun _ : Unit => [])).top_predictions = [("error", 100)] ∧ ((100:ℚ) ≠ 1) :=
  ⟨rfl, by norm_num⟩

/-- C3 amended: `recognize_sketch` is total (never propagates an exception):
whenever the underlying predict step returns a non-empty list the response's
prediction list is non-empty, and on an internal exception it returns a
well-formed response with `success = false` and the single synthetic candidate
`("error", 100.0)` (confidence on the 0-100 percentage scale). -/
theorem recognize_sketch_never_raises {α : Type} (pre : Except String α)
    (f : α → List (String × ℚ)) (hf : ∀ x, f x ≠ []) :
    (RecognitionService.recognize_sketch pre f).top_predictions ≠ [] ∧
    (∀ e, pre = Except.error e →
      (RecognitionService.recognize_sketch pre f).success = false ∧
      (RecognitionService.recognize_sketch pre f).top_predictions = [("error", 100)]) := by
  cases pre with
  | ok x =>
    refine ⟨?_, ?_⟩
    · show (f x).map _ ≠ []
      rw [Ne, List.map_eq_nil_iff]
      exact hf x
    · intro e he
      exact Except.noConfusion he
  | error e =>
    exact ⟨by simp [RecognitionService.recognize_sketch], fun _ _ => ⟨rfl, rfl⟩⟩

/-- Witness for C3 amended at a concrete successful input. -/
theorem recognize_sketch_never_raises_witness :
    (RecognitionService.recognize_sketch (Except.ok ())
      (fun _ : Unit => [("cat", 1)])).top_predictions ≠ [] :=
  (recognize_sketch_never_raises (Except.ok ()) (fun _ : Unit => [("cat", 1)])
    (fun _ => by simp)).1

/-- C1 counterexample: a `recognize_sketch` output whose underlying prediction
list is `[("cat", 1.0)]` (itself perfectly normalized) reports total
confidence 100, far outside `1.0 ± 1e-6`: the service formats confidences as
percentages and performs no final renormalization. -/
theorem recognize_sketch_percent_sum_cex :
    ((RecognitionService.recognize_sketch (Except.ok ())
        (fun _ : Unit => [("cat", 1)])).top_predictions.map Prod.snd).sum = 100 ∧
    ¬ |(100:ℚ) - 1| ≤ 1/1000000 := by
  constructor
  · have h100 : RecognitionService.round2 ((1:ℚ) * 100) = 100 := by
      rw [RecognitionService.round2,
        show ⌊((1:ℚ) * 100) * 100 + 1/2⌋ = (10000:ℤ) by
          rw [Int.floor_eq_iff]
          constructor <;> norm_num]
      norm_num
    show ((([("cat", (1:ℚ))]).map
      (fun p => (p.1, RecognitionService.round2 (p.2 * 100)))).map Prod.snd).sum = 100
    rw [List.map_cons, List.map_cons]
    simpa using h100
  · rw [not_le]
    rw [show |(100:ℚ) - 1| = 99 by
      rw [abs_of_nonneg] <;> norm_num]
    norm_num

namespace Ensemble

/-- The two models of `EnsembleSketchRecognitionService`: the 5-category
specialized model and the 14-category general model. -/
inductive ModelName where
  | specialized
  | general
deriving DecidableEq

/-- Lookup in an insertion-ordered association list (a Python dict). -/
def lookupAssoc {κ β : Type} [DecidableEq κ] (m : List (κ × β)) (k : κ) : Option β :=
  match m with
  | [] => none
  | e :: rest => if e.1 = k then some e.2 else lookupAssoc rest k

/-- `d[k] = v` on an insertion-ordered association list: an existing key keeps
its position and gets the new value (Python dict semantics), a new key is
appended. -/
def updateAssoc {κ β : Type} [DecidableEq κ] (m : List (κ × β)) (k : κ) (v : β) :
    List (κ × β) :=
  match m with
  | [] => [(k, v)]
  | e :: rest => if e.1 = k then (k, v) :: rest else e :: updateAssoc rest k v

/-- A dict built by repeated assignment over a list of entries (later values
for the same key overwrite earlier ones, first position is kept). -/
def dictOf {κ β : Type} [DecidableEq κ] (l : List (κ × β)) : List (κ × β) :=
  l.foldl (fun d e => updateAssoc d e.1 e.2) []

/-- `_setup_category_mapping` (ensemble_recognition_service.py lines 120-148):
every label of the specialized vocabulary is routed to the specialized model
(also when the general model shares it); labels only in the general
vocabulary are routed to the general model. -/
def categoryModelMap (specCats genCats : List String) (c : String) : Option ModelName :=
  if c ∈ specCats then some ModelName.specialized
  else if c ∈ genCats then some ModelName.general
  else none

/-- The `all_predictions[(model_name, class_name)] = confidence` dict built
over both models' ranked outputs (ensemble_recognition_service.py lines
269-275); the specialized model's entries come first because `self.models`
iterates in insertion order. -/
def allPredictions (specPreds genPreds : List (String × ℚ)) :
    List ((ModelName × String) × ℚ) :=
  dictOf (specPreds.map (fun p => ((ModelName.specialized, p.1), p.2)) ++
    genPreds.map (fun p => ((ModelName.general, p.1), p.2)))

/-- One iteration of the combination loop (ensemble_recognition_service.py
lines 279-296), branch for branch; the `elif model_name == preferred_model`
branch of the source is unreachable (its condition is part of the first `if`)
and is retained as dead code here too. -/
def combineStep (catMap : String → Option ModelName)
    (acc : List (String × ℚ)) (e : (ModelName × String) × ℚ) : List (String × ℚ) :=
  match catMap e.1.2 with
  | some preferred =>
    if e.1.1 = preferred ∨ lookupAssoc acc e.1.2 = none then
      updateAssoc acc e.1.2 e.2
    else if e.1.1 = preferred then
      updateAssoc acc e.1.2 e.2
    else acc
  | none =>
    match lookupAssoc acc e.1.2 with
    | none => updateAssoc acc e.1.2 e.2
    | some old => if old < e.2 then updateAssoc acc e.1.2 e.2 else acc

/-- The `combined_predictions` dict after the whole combination loop. -/
def combinePredictions (catMap : String → Option ModelName)
    (entries : List ((ModelName × String) × ℚ)) : List (String × ℚ) :=
  entries.foldl (combineStep catMap) []

/-- `EnsembleSketchRecognitionService.predict` (lines 252-302): combine both
models' predictions, sort by confidence descending (Python's stable sort),
return the top 10. -/
def predict (catMap : String → Option ModelName)
    (specPreds genPreds : List (String × ℚ)) : List (String × ℚ) :=
  (List.insertionSort confDesc
    (combinePredictions catMap (allPredictions specPreds genPreds))).take 10

theorem lookup_updateAssoc_self {κ β : Type} [DecidableEq κ]
    (m : List (κ × β)) (k : κ) (v : β) : lookupAssoc (updateAssoc m k v) k = some v := by
  induction m with
  | nil => simp [updateAssoc, lookupAssoc]
  | cons e rest ih =>
    by_cases h : e.1 = k
    · simp [updateAssoc, h, lookupAssoc]
    · simp [updateAssoc, h, lookupAssoc, ih]

theorem lookup_updateAssoc_other {κ β : Type} [DecidableEq κ]
    (m : List (κ × β)) (k k' : κ) (v : β) (hk : k' ≠ k) :
    lookupAssoc (updateAssoc m k v) k' = lookupAssoc m k' := by
  have hkne : ¬ (k = k') := fun hc => hk hc.symm
  induction m with
  | nil =>
    show lookupAssoc [(k, v)] k' = lookupAssoc [] k'
    show (if k = k' then some v else lookupAssoc [] k') = lookupAssoc ([] : List (κ × β)) k'
    rw [if_neg hkne]
  | cons e rest ih =>
    by_cases h : e.1 = k
    · rw [show updateAssoc (e :: rest) k v = (k, v) :: rest from by simp [updateAssoc, h]]
      show (if k = k' then some v else lookupAssoc rest k') = lookupAssoc (e :: rest) k'
      rw [if_neg hkne]
      show lookupAssoc rest k' = if e.1 = k' then some e.2 else lookupAssoc rest k'
      rw [if_neg (fun hc : e.1 = k' => hkne (h ▸ hc))]
    · rw [show updateAssoc (e :: rest) k v = e :: updateAssoc rest k v from by
        simp [updateAssoc, h]]
      show (if e.1 = k' then some e.2 else lookupAssoc (updateAssoc rest k v) k') =
        lookupAssoc (e :: rest) k'
      show (if e.1 = k' then some e.2 else lookupAssoc (updateAssoc rest k v) k') =
        if e.1 = k' then some e.2 else lookupAssoc rest k'
      rw [ih]

theorem updateAssoc_append_of_lookup_none {κ β : Type} [DecidableEq κ]
    (m : List (κ × β)) (k : κ) (v : β) (h : lookupAssoc m k = none) :
    updateAssoc m k v = m ++ [(k, v)] := by
  induction m with
  | nil => rfl
  | cons e rest ih =>
    have hne : e.1 ≠ k := by
      intro hc
      rw [show lookupAssoc (e :: rest) k = some e.2 from by simp [lookupAssoc, hc]] at h
      cases h
    have hrest : lookupAssoc rest k = none := by
      rwa [show lookupAssoc (e :: rest) k = lookupAssoc rest k from by
        simp [lookupAssoc, hne]] at h
    simp [updateAssoc, hne, ih hrest]

theorem lookupAssoc_append_none {κ β : Type} [DecidableEq κ]
    (m m' : List (κ × β)) (k : κ) (h : lookupAssoc m k = none)
    (h' : lookupAssoc m' k = none) : lookupAssoc (m ++ m') k = none := by
  induction m with
  | nil => simpa using h'
  | cons e rest ih =>
    have hne : e.1 ≠ k := by
      intro hc
      rw [show lookupAssoc (e :: rest) k = some e.2 from by simp [lookupAssoc, hc]] at h
      cases h
    have hrest : lookupAssoc rest k = none := by
      rwa [show lookupAssoc (e :: rest) k = lookupAssoc rest k from by
        simp [lookupAssoc, hne]] at h
    rw [List.cons_append,
      show lookupAssoc (e :: (rest ++ m')) k = lookupAssoc (rest ++ m') k from by
        simp [lookupAssoc, hne]]
    exact ih hrest

theorem lookupAssoc_none_of_not_mem_keys {κ β : Type} [DecidableEq κ]
    (m : List (κ × β)) (k : κ) (h : k ∉ m.map Prod.fst) : lookupAssoc m k = none := by
  induction m with
  | nil => rfl
  | cons e rest ih =>
    have h1 : e.1 ≠ k := fun hc => h (by simp [hc])
    have h2 : k ∉ rest.map Prod.fst := fun hc => h (by simp [hc])
    simp [lookupAssoc, h1, ih h2]

theorem lookupAssoc_of_mem_nodup {κ β : Type} [DecidableEq κ]
    (m : List (κ × β)) (k : κ) (v : β) (hm : (k, v) ∈ m)
    (hnd : (m.map Prod.fst).Nodup) : lookupAssoc m k = some v := by
  induction m with
  | nil => cases hm
  | cons e rest ih =>
    rcases List.mem_cons.mp hm with h | h
    · rw [← h]
      simp [lookupAssoc]
    · have hnd2 : (e.1 :: rest.map Prod.fst).Nodup := by
        rw [List.map_cons] at hnd
        exact hnd
      have hk : k ∈ rest.map Prod.fst := List.mem_map.mpr ⟨(k, v), h, rfl⟩
      have hne : e.1 ≠ k := fun hc => (List.nodup_cons.mp hnd2).1 (hc ▸ hk)
      have hnd' : (rest.map Prod.fst).Nodup := (List.nodup_cons.mp hnd2).2
      simp [lookupAssoc, hne, ih h hnd']

theorem foldl_update_append {κ β : Type} [DecidableEq κ] (l : List (κ × β)) :
    ∀ d : List (κ × β), (∀ e ∈ l, lookupAssoc d e.1 = none) → (l.map Prod.fst).Nodup →
      l.foldl (fun d e => updateAssoc d e.1 e.2) d = d ++ l := by
  induction l with
  | nil => intro d _ _; simp
  | cons e rest ih =>
    intro d hd hnd
    have hnd2 : (e.1 :: rest.map Prod.fst).Nodup := by
      rw [List.map_cons] at hnd
      exact hnd
    have hstep : updateAssoc d e.1 e.2 = d ++ [(e.1, e.2)] :=
      updateAssoc_append_of_lookup_none d e.1 e.2 (hd e (List.mem_cons_self e rest))
    have hnotmem : e.1 ∉ rest.map Prod.fst := (List.nodup_cons.mp hnd2).1
    have hd' : ∀ e' ∈ rest, lookupAssoc (d ++ [(e.1, e.2)]) e'.1 = none := by
      intro e' he'
      refine lookupAssoc_append_none _ _ _ (hd e' (List.mem_cons_of_mem e he')) ?_
      have hne : e.1 ≠ e'.1 := by
        intro hc
        exact hnotmem (List.mem_map.mpr ⟨e', he', hc.symm⟩)
      simp [lookupAssoc, hne]
    have hnd' : (rest.map Prod.fst).Nodup := (List.nodup_cons.mp hnd2).2
    calc (e :: rest).foldl (fun d e => updateAssoc d e.1 e.2) d
        = rest.foldl (fun d e => updateAssoc d e.1 e.2) (updateAssoc d e.1 e.2) := rfl
    _ = rest.foldl (fun d e => updateAssoc d e.1 e.2) (d ++ [(e.1, e.2)]) := by rw [hstep]
    _ = (d ++ [(e.1, e.2)]) ++ rest := ih (d ++ [(e.1, e.2)]) hd' hnd'
    _ = d ++ (e :: rest) := by simp

theorem dictOf_eq_self {κ β : Type} [DecidableEq κ] (l : List (κ × β))
    (h : (l.map Prod.fst).Nodup) : dictOf l = l := by
  rw [dictOf, foldl_update_append l [] (fun e _ => rfl) h]
  rfl

theorem combineStep_preferred (catMap : String → Option ModelName)
    (acc : List (String × ℚ)) (e : (ModelName × String) × ℚ) (preferred : ModelName)
    (hcat : catMap e.1.2 = some preferred) (h1 : e.1.1 = preferred) :
    combineStep catMap acc e = updateAssoc acc e.1.2 e.2 := by
  unfold combineStep
  rw [hcat]
  dsimp only
  rw [if_pos (Or.inl h1)]

theorem combineStep_not_preferred_present (catMap : String → Option ModelName)
    (acc : List (String × ℚ)) (e : (ModelName × String) × ℚ) (preferred : ModelName)
    (v : ℚ) (hcat : catMap e.1.2 = some preferred) (h1 : e.1.1 ≠ preferred)
    (hl : lookupAssoc acc e.1.2 = some v) :
    combineStep catMap acc e = acc := by
  unfold combineStep
  rw [hcat]
  dsimp only
  rw [if_neg (by
    rintro (hc | hc)
    · exact h1 hc
    · rw [hl] at hc
      cases hc)]
  rw [if_neg h1]

theorem combineStep_lookup_other (catMap : String → Option ModelName)
    (acc : List (String × ℚ)) (e : (ModelName × String) × ℚ) (k : String)
    (hk : e.1.2 ≠ k) :
    lookupAssoc (combineStep catMap acc e) k = lookupAssoc acc k := by
  have hkk : k ≠ e.1.2 := fun hc => hk hc.symm
  unfold combineStep
  cases hcat : catMap e.1.2 with
  | some preferred =>
    dsimp only
    split_ifs with h1 h2
    · exact lookup_updateAssoc_other acc e.1.2 k e.2 hkk
    · exact lookup_updateAssoc_other acc e.1.2 k e.2 hkk
    · rfl
  | none =>
    dsimp only
    cases hl : lookupAssoc acc e.1.2 with
    | none => exact lookup_updateAssoc_other acc e.1.2 k e.2 hkk
    | some old =>
      dsimp only
      split_ifs with h
      · exact lookup_updateAssoc_other acc e.1.2 k e.2 hkk
      · rfl

theorem combine_preserve (catMap : String → Option ModelName) (label : String)
    (m₀ : ModelName) (hcat : catMap label = some m₀) (c : ℚ) :
    ∀ (entries : List ((ModelName × String) × ℚ)) (acc : List (String × ℚ)),
      (∀ e ∈ entries, e.1.2 = label → e.1.1 ≠ m₀) →
      lookupAssoc acc label = some c →
      lookupAssoc (entries.foldl (combineStep catMap) acc) label = some c := by
  intro entries
  induction entries with
  | nil => intro acc _ hacc; exact hacc
  | cons e rest ih =>
    intro acc hent hacc
    have hstep : lookupAssoc (combineStep catMap acc e) label = some c := by
      by_cases h2 : e.1.2 = label
      · have h1 : e.1.1 ≠ m₀ := hent e (List.mem_cons_self e rest) h2
        rw [combineStep_not_preferred_present catMap acc e m₀ c (h2 ▸ hcat) h1 (h2 ▸ hacc)]
        exact hacc
      · rw [combineStep_lookup_other catMap acc e label h2]
        exact hacc
    exact ih (combineStep catMap acc e)
      (fun e' he' => hent e' (List.mem_cons_of_mem e he')) hstep

/-- The confidences contributed by the specialized model for a given label
within the `all_predictions` entry list. -/
def specValsFor (label : String) (entries : List ((ModelName × String) × ℚ)) : List ℚ :=
  entries.filterMap (fun e =>
    if e.1.1 = ModelName.specialized ∧ e.1.2 = label then some e.2 else none)

theorem specValsFor_nil_no_spec (label : String)
    (entries : List ((ModelName × String) × ℚ)) (h : specValsFor label entries = []) :
    ∀ e ∈ entries, e.1.2 = label → e.1.1 ≠ ModelName.specialized := by
  intro e he h2 h1
  have hall := List.filterMap_eq_nil_iff.mp h e he
  rw [if_pos ⟨h1, h2⟩] at hall
  cases hall

theorem combine_spec_wins (catMap : String → Option ModelName) (label : String)
    (hcat : catMap label = some ModelName.specialized) (c : ℚ) :
    ∀ (entries : List ((ModelName × String) × ℚ)) (acc : List (String × ℚ)),
      specValsFor label entries = [c] →
      lookupAssoc (entries.foldl (combineStep catMap) acc) label = some c := by
  intro entries
  induction entries with
  | nil =>
    intro acc h
    simp [specValsFor] at h
  | cons e rest ih =>
    intro acc h
    by_cases h2 : e.1.2 = label
    · by_cases h1 : e.1.1 = ModelName.specialized
      · have hfe : (fun e : (ModelName × String) × ℚ =>
            if e.1.1 = ModelName.specialized ∧ e.1.2 = label then some e.2 else none) e =
            some e.2 := if_pos ⟨h1, h2⟩
        rw [specValsFor] at h
        simp only [List.filterMap_cons, hfe] at h
        obtain ⟨hc, hrest⟩ := List.cons_eq_cons.mp h
        have hstep : lookupAssoc (combineStep catMap acc e) label = some c := by
          rw [combineStep_preferred catMap acc e ModelName.specialized (h2 ▸ hcat) h1,
            ← hc, h2]
          exact lookup_updateAssoc_self acc label e.2
        exact combine_preserve catMap label ModelName.specialized hcat c rest
          (combineStep catMap acc e) (specValsFor_nil_no_spec label rest hrest) hstep
      · have hfe : (fun e : (ModelName × String) × ℚ =>
            if e.1.1 = ModelName.specialized ∧ e.1.2 = label then some e.2 else none) e =
            none := if_neg (fun hand => h1 hand.1)
        rw [specValsFor] at h
        simp only [List.filterMap_cons, hfe] at h
        exact ih (combineStep catMap acc e) h
    · have hfe : (fun e : (ModelName × String) × ℚ =>
          if e.1.1 = ModelName.specialized ∧ e.1.2 = label then some e.2 else none) e =
          none := if_neg (fun hand => h2 hand.2)
      rw [specValsFor] at h
      simp only [List.filterMap_cons, hfe] at h
      exact ih (combineStep catMap acc e) h

theorem keys_updateAssoc_sub {κ β : Type} [DecidableEq κ]
    (m : List (κ × β)) (k : κ) (v : β) :
    ∀ x ∈ (updateAssoc m k v).map Prod.fst, x ∈ m.map Prod.fst ∨ x = k := by
  induction m with
  | nil =>
    intro x hx
    rw [show updateAssoc ([] : List (κ × β)) k v = [(k, v)] from rfl,
      List.map_cons, List.map_nil] at hx
    exact Or.inr (List.mem_singleton.mp hx)
  | cons e rest ih =>
    intro x hx
    by_cases he : e.1 = k
    · rw [show updateAssoc (e :: rest) k v = (k, v) :: rest from by
        simp [updateAssoc, he], List.map_cons] at hx
      rcases List.mem_cons.mp hx with hc | hc
      · exact Or.inr hc
      · exact Or.inl (by rw [List.map_cons]; exact List.mem_cons_of_mem e.1 hc)
    · rw [show updateAssoc (e :: rest) k v = e :: updateAssoc rest k v from by
        simp [updateAssoc, he], List.map_cons] at hx
      rcases List.mem_cons.mp hx with hc | hc
      · exact Or.inl (by rw [List.map_cons]; exact hc ▸ List.mem_cons_self e.1 _)
      · rcases ih x hc with hm | hm
        · exact Or.inl (by rw [List.map_cons]; exact List.mem_cons_of_mem e.1 hm)
        · exact Or.inr hm

theorem nodup_keys_updateAssoc {κ β : Type} [DecidableEq κ]
    (m : List (κ × β)) (k : κ) (v : β) (h : (m.map Prod.fst).Nodup) :
    ((updateAssoc m k v).map Prod.fst).Nodup := by
  induction m with
  | nil => simp [updateAssoc]
  | cons e rest ih =>
    rw [List.map_cons] at h
    obtain ⟨hh, ht⟩ := List.nodup_cons.mp h
    by_cases he : e.1 = k
    · rw [show updateAssoc (e :: rest) k v = (k, v) :: rest from by
        simp [updateAssoc, he]]
      rw [List.map_cons]
      exact List.nodup_cons.mpr ⟨he ▸ hh, ht⟩
    · rw [show updateAssoc (e :: rest) k v = e :: updateAssoc rest k v from by
        simp [updateAssoc, he]]
      rw [List.map_cons]
      refine List.nodup_cons.mpr ⟨?_, ih ht⟩
      intro hc
      rcases keys_updateAssoc_sub rest k v e.1 hc with hm | hm
      · exact hh hm
      · exact he hm

theorem combineStep_keys_nodup (catMap : String → Option ModelName)
    (acc : List (String × ℚ)) (e : (ModelName × String) × ℚ)
    (h : (acc.map Prod.fst).Nodup) :
    ((combineStep catMap acc e).map Prod.fst).Nodup := by
  unfold combineStep
  cases catMap e.1.2 with
  | some preferred =>
    dsimp only
    split_ifs
    · exact nodup_keys_updateAssoc acc e.1.2 e.2 h
    · exact nodup_keys_updateAssoc acc e.1.2 e.2 h
    · exact h
  | none =>
    dsimp only
    cases lookupAssoc acc e.1.2 with
    | none => exact nodup_keys_updateAssoc acc e.1.2 e.2 h
    | some old =>
      dsimp only
      split_ifs
      · exact nodup_keys_updateAssoc acc e.1.2 e.2 h
      · exact h

theorem combine_keys_nodup (catMap : String → Option ModelName)
    (entries : List ((ModelName × String) × ℚ)) :
    ∀ acc : List (String × ℚ), (acc.map Prod.fst).Nodup →
      ((entries.foldl (combineStep catMap) acc).map Prod.fst).Nodup := by
  induction entries with
  | nil => intro acc h; exact h
  | cons e rest ih =>
    intro acc h
    exact ih (combineStep catMap acc e) (combineStep_keys_nodup catMap acc e h)

theorem filterMap_label_single (l : List (String × ℚ)) (label : String) (c : ℚ)
    (hm : (label, c) ∈ l) (hnd : (l.map Prod.fst).Nodup) :
    l.filterMap (fun p => if p.1 = label then some p.2 else none) = [c] := by
  induction l with
  | nil => cases hm
  | cons p rest ih =>
    rw [List.map_cons] at hnd
    obtain ⟨hh, ht⟩ := List.nodup_cons.mp hnd
    rcases List.mem_cons.mp hm with heq | hmem
    · have hp1 : p.1 = label := by rw [← heq]
      have hp2 : p.2 = c := by rw [← heq]
      have hfe : (fun p : String × ℚ => if p.1 = label then some p.2 else none) p =
          some p.2 := if_pos hp1
      simp only [List.filterMap_cons, hfe]
      rw [hp2]
      have hrest : rest.filterMap (fun p => if p.1 = label then some p.2 else none) = [] := by
        rw [List.filterMap_eq_nil_iff]
        intro q hq
        have hqne : q.1 ≠ label := by
          intro hc
          exact hh (hp1 ▸ hc ▸ List.mem_map.mpr ⟨q, hq, rfl⟩)
        exact if_neg hqne
      rw [hrest]
    · have hp1 : p.1 ≠ label := by
        intro hc
        exact hh (hc ▸ List.mem_map.mpr ⟨(label, c), hmem, rfl⟩)
      have hfe : (fun p : String × ℚ => if p.1 = label then some p.2 else none) p =
          none := if_neg hp1
      simp only [List.filterMap_cons, hfe]
      exact ih hmem ht

end Ensemble

/-- C2: ensemble specialized-preference. For any two vocabularies and ranked
model outputs with duplicate-free labels, if a label belongs to both
vocabularies (hence `_setup_category_mapping` routes it to the specialized
model) and the specialized model scored it with confidence `c`, then the
combined prediction dict maps that label to exactly `c`, and every occurrence
of the label in `EnsembleSketchRecognitionService.predict`'s final ranking
carries exactly `c`, regardless of the general model's score for it. -/
theorem ensemble_specialized_preference
    (specCats genCats : List String) (specPreds genPreds : List (String × ℚ))
    (label : String) (c : ℚ)
    (hspec : label ∈ specCats) (hgen : label ∈ genCats)
    (hmemb : (label, c) ∈ specPreds)
    (hnds : (specPreds.map Prod.fst).Nodup)
    (hndg : (genPreds.map Prod.fst).Nodup) :
    Ensemble.lookupAssoc
      (Ensemble.combinePredictions (Ensemble.categoryModelMap specCats genCats)
        (Ensemble.allPredictions specPreds genPreds)) label = some c ∧
    ∀ c', (label, c') ∈ Ensemble.predict (Ensemble.categoryModelMap specCats genCats)
        specPreds genPreds → c' = c := by
  have hcat : Ensemble.categoryModelMap specCats genCats label =
      some Ensemble.ModelName.specialized := by
    unfold Ensemble.categoryModelMap
    rw [if_pos hspec]
  have hkeys : (((specPreds.map
        (fun p => ((Ensemble.ModelName.specialized, p.1), p.2)) ++
      genPreds.map (fun p => ((Ensemble.ModelName.general, p.1), p.2))).map
        Prod.fst)).Nodup := by
    rw [List.map_append, List.map_map, List.map_map]
    refine List.Nodup.append ?_ ?_ ?_
    · have hcomp : (Prod.fst ∘ fun p : String × ℚ =>
          ((Ensemble.ModelName.specialized, p.1), p.2)) =
          (fun l => (Ensemble.ModelName.specialized, l)) ∘ Prod.fst := rfl
      rw [hcomp, ← List.map_map]
      exact hnds.map (fun a b hab => congrArg Prod.snd hab)
    · have hcomp : (Prod.fst ∘ fun p : String × ℚ =>
          ((Ensemble.ModelName.general, p.1), p.2)) =
          (fun l => (Ensemble.ModelName.general, l)) ∘ Prod.fst := rfl
      rw [hcomp, ← List.map_map]
      exact hndg.map (fun a b hab => congrArg Prod.snd hab)
    · intro x hx1 hx2
      rcases List.mem_map.mp hx1 with ⟨p, -, hp⟩
      rcases List.mem_map.mp hx2 with ⟨q, -, hq⟩
      have hpq := hp.trans hq.symm
      have : Ensemble.ModelName.specialized = Ensemble.ModelName.general :=
        congrArg Prod.fst hpq
      cases this
  have hdict : Ensemble.allPredictions specPreds genPreds =
      specPreds.map (fun p => ((Ensemble.ModelName.specialized, p.1), p.2)) ++
        genPreds.map (fun p => ((Ensemble.ModelName.general, p.1), p.2)) :=
    Ensemble.dictOf_eq_self _ hkeys
  have hvals : Ensemble.specValsFor label
      (specPreds.map (fun p => ((Ensemble.ModelName.specialized, p.1), p.2)) ++
        genPreds.map (fun p => ((Ensemble.ModelName.general, p.1), p.2))) = [c] := by
    unfold Ensemble.specValsFor
    rw [List.filterMap_append, List.filterMap_map, List.filterMap_map]
    have hgenpart : genPreds.filterMap ((fun e : (Ensemble.ModelName × String) × ℚ =>
        if e.1.1 = Ensemble.ModelName.specialized ∧ e.1.2 = label then some e.2 else none) ∘
          (fun p => ((Ensemble.ModelName.general, p.1), p.2))) = [] := by
      rw [List.filterMap_eq_nil_iff]
      intro p _
      have hno : ¬ (Ensemble.ModelName.general = Ensemble.ModelName.specialized ∧
          p.1 = label) := fun hand => by cases hand.1
      show (if (Ensemble.ModelName.general = Ensemble.ModelName.specialized ∧ p.1 = label)
        then some p.2 else none) = none
      exact if_neg hno
    have hspecpart : specPreds.filterMap ((fun e : (Ensemble.ModelName × String) × ℚ =>
        if e.1.1 = Ensemble.ModelName.specialized ∧ e.1.2 = label then some e.2 else none) ∘
          (fun p => ((Ensemble.ModelName.specialized, p.1), p.2))) = [c] := by
      rw [List.filterMap_congr (g := fun p : String × ℚ =>
        if p.1 = label then some p.2 else none)]
      · exact Ensemble.filterMap_label_single specPreds label c hmemb hnds
      · intro p _
        by_cases hp : p.1 = label
        · rw [if_pos hp]
          exact if_pos ⟨rfl, hp⟩
        · rw [if_neg hp]
          exact if_neg (fun hand => hp hand.2)
    rw [hgenpart, hspecpart]
    simp
  have hlookup : Ensemble.lookupAssoc
      (Ensemble.combinePredictions (Ensemble.categoryModelMap specCats genCats)
        (Ensemble.allPredictions specPreds genPreds)) label = some c := by
    rw [Ensemble.combinePredictions, hdict]
    exact Ensemble.combine_spec_wins _ label hcat c _ [] hvals
  refine ⟨hlookup, ?_⟩
  intro c' hc'
  have h1 : (label, c') ∈ List.insertionSort confDesc
      (Ensemble.combinePredictions (Ensemble.categoryModelMap specCats genCats)
        (Ensemble.allPredictions specPreds genPreds)) :=
    List.mem_of_mem_take hc'
  have h2 : (label, c') ∈ Ensemble.combinePredictions
      (Ensemble.categoryModelMap specCats genCats)
      (Ensemble.allPredictions specPreds genPreds) :=
    (List.perm_insertionSort confDesc _).mem_iff.mp h1
  have hnd : ((Ensemble.combinePredictions
      (Ensemble.categoryModelMap specCats genCats)
      (Ensemble.allPredictions specPreds genPreds)).map Prod.fst).Nodup :=
    Ensemble.combine_keys_nodup _ _ [] (by simp)
  have h3 := Ensemble.lookupAssoc_of_mem_nodup _ label c' h2 hnd
  have h4 := h3.symm.trans hlookup
  exact Option.some.inj h4

/-- Witness for C2: specialized vocabulary `["apple"]`, general vocabulary
`["apple", "cat"]`, specialized score 9/10 for apple, general score 1/10: the
combined dict carries apple at exactly 9/10. -/
theorem ensemble_specialized_preference_witness :
    Ensemble.lookupAssoc
      (Ensemble.combinePredictions (Ensemble.categoryModelMap ["apple"] ["apple", "cat"])
        (Ensemble.allPredictions [("apple", 9/10)] [("apple", 1/10), ("cat", 2/10)]))
      "apple" = some (9/10) :=
  (ensemble_specialized_preference ["apple"] ["apple", "cat"]
    [("apple", 9/10)] [("apple", 1/10), ("cat", 2/10)] "apple" (9/10)
    (by simp) (by simp) (by simp) (by simp) (by simp)).1

/-- C10: `normalize_image` is total and range-bounded. On a non-empty input
whose maximum equals its minimum it returns the all-zero array of the same
shape (the division is never executed); on any other input, with the default
target range `(0, 1)`, every output value lies in `[0, 1]` and the output
minimum and maximum are exactly `0` and `1`. -/
theorem normalize_image_total_range (m : Mat) (hne : m.flatten ≠ []) :
    (matMax m = matMin m → ImageUtils.normalize_image m 0 1 = zerosLike m) ∧
    (matMax m ≠ matMin m →
      (∀ q ∈ (ImageUtils.normalize_image m 0 1).flatten, 0 ≤ q ∧ q ≤ 1) ∧
      matMin (ImageUtils.normalize_image m 0 1) = 0 ∧
      matMax (ImageUtils.normalize_image m 0 1) = 1) := by
  constructor
  · intro h
    unfold ImageUtils.normalize_image
    rw [if_pos h]
  · intro h
    have hle : matMin m ≤ matMax m := listMin_le_listMax m.flatten hne
    have hlt : matMin m < matMax m := lt_of_le_of_ne hle (fun hc => h hc.symm)
    have hd : 0 < matMax m - matMin m := sub_pos.mpr hlt
    have hrw : ImageUtils.normalize_image m 0 1 =
        m.map (List.map (fun q => (q - matMin m) / (matMax m - matMin m) * (1 - 0) + 0)) := by
      unfold ImageUtils.normalize_image
      rw [if_neg h]
    have hmono : Monotone (fun q : ℚ => (q - matMin m) / (matMax m - matMin m) * (1 - 0) + 0) := by
      intro a b hab
      have : (a - matMin m) / (matMax m - matMin m) ≤ (b - matMin m) / (matMax m - matMin m) :=
        div_le_div_of_nonneg_right (by linarith) hd.le
      simpa using this
    have hflat : (ImageUtils.normalize_image m 0 1).flatten =
        m.flatten.map (fun q => (q - matMin m) / (matMax m - matMin m) * (1 - 0) + 0) := by
      rw [hrw, flatten_map_map]
    refine ⟨?_, ?_, ?_⟩
    · intro q hq
      rw [hflat] at hq
      rcases List.mem_map.mp hq with ⟨x, hx, hfx⟩
      have hxmin : matMin m ≤ x := listMin_le_mem m.flatten x hx
      have hxmax : x ≤ matMax m := mem_le_listMax m.flatten x hx
      constructor
      · rw [← hfx]
        have : 0 ≤ (x - matMin m) / (matMax m - matMin m) :=
          div_nonneg (by linarith) (le_of_lt hd)
        simpa using this
      · rw [← hfx]
        have : (x - matMin m) / (matMax m - matMin m) ≤ 1 :=
          (div_le_one hd).mpr (by linarith)
        simpa using this
    · rw [matMin, hflat, listMin_map _ hmono m.flatten hne]
      have hmin : listMin m.flatten = matMin m := rfl
      rw [hmin, sub_self, zero_div, zero_mul, zero_add]
    · rw [matMax, hflat, listMax_map _ hmono m.flatten hne]
      have hmax : listMax m.flatten = matMax m := rfl
      rw [hmax]
      have hne0 : matMax m - matMin m ≠ 0 := ne_of_gt hd
      rw [div_self hne0]
      ring

/-- Witness for C10 at the concrete array `[[0, 2]]`. -/
theorem normalize_image_total_range_witness :
    matMin (ImageUtils.normalize_image [[0, 2]] 0 1) = 0 ∧
    matMax (ImageUtils.normalize_image [[0, 2]] 0 1) = 1 :=
  ((normalize_image_total_range [[0, 2]] (by simp)).2 (by decide)).2

end SketchRec
